import Mathlib

/-!
Verification of the mio ping-pong echo server (`src/ping_pong/src/main.rs`).

The development shallowly embeds the program's pure core:

* `State` embeds the Rust `enum State { Reading(Vec<u8>), Writing(Take<Cursor<Vec<u8>>>), Closed }`.
  A `Take<Cursor<Vec<u8>>>` is represented by the cursor position `pos`, the
  `Take`'s current (remaining) limit `lim`, and the underlying byte vector.
* `try_transition_to_writing`, `try_transition_to_reading`, `event_set`,
  `drain_to` embed the methods of the same names.  The two transition
  methods begin by extracting the payload of the expected variant
  (`read_buf` / `write_buf` panic on any other variant), so the embeddings
  take the payload directly.
* `conn_read` / `conn_write` / `conn_ready` embed `Connection::read`,
  `Connection::write` and `Connection::ready`; the socket's behaviour is an
  oracle argument (`ReadResult` / `WriteResult`).  A Rust `panic!` (or a
  failed `assert!`/`unwrap`) is modelled by `StepResult.panicked` or by an
  `Option` result of `none`.
* `Registry` embeds the `Slab<Connection>` (tokens start at 1, slot `i`
  holds token `i + 1`); `pong_ready` embeds `Pong::ready`, with the result
  of `TcpListener::accept` as an oracle argument.
-/

namespace PingPong

/-- Bytes are modelled as natural numbers; only equality with `newline` matters. -/
abbrev Byte := Nat

/-- The byte constant `b'\n'`. -/
def newline : Byte := 10

/-- Embeds `enum State`.  `Writing pos lim buf` is `Writing(Take<Cursor<Vec<u8>>>)`
where the cursor of `buf` stands at `pos` and the `Take`'s remaining limit is `lim`. -/
inductive State where
  | Reading (buf : List Byte)
  | Writing (pos lim : Nat) (buf : List Byte)
  | Closed
deriving DecidableEq, Repr

/-- Embeds `self.read_buf().iter().position(|b| *b == b'\n')`. -/
def findNewline : List Byte → Option Nat
  | [] => none
  | b :: rest => if b = newline then some 0 else (findNewline rest).map (· + 1)

/-- Embeds `State::try_transition_to_writing` on the `Reading` payload `buf`
(on any other variant `read_buf` panics, hence the payload-typed argument).
If a newline is found at `pos`, the whole accumulator becomes the `Writing`
buffer with cursor `0` and limit `pos + 1`; otherwise the state is unchanged. -/
def try_transition_to_writing (buf : List Byte) : State :=
  match findNewline buf with
  | some p => State.Writing 0 (p + 1) buf
  | none => State.Reading buf

/-- Embeds the free function `drain_to`: `for _ in 0..count { vec.remove(0) }`.
`vec.remove(0)` panics on an empty vector, modelled by `none`. -/
def drain_to : List Byte → Nat → Option (List Byte)
  | v, 0 => some v
  | [], _ + 1 => none
  | _ :: vs, c + 1 => drain_to vs c

/-- `Buf::remaining` of the `Take<Cursor<Vec<u8>>>` represented by
`(pos, lim, buf)`: the minimum of the cursor's remaining bytes and the
`Take`'s remaining limit. -/
def takeRemaining (pos lim : Nat) (buf : List Byte) : Nat :=
  min (buf.length - pos) lim

/-- Embeds `State::try_transition_to_reading` on the `Writing` payload
(`write_buf` panics on other variants).  When the `Take` has no remaining
bytes, the bytes before the cursor are drained and the newline scan is
re-run on the remainder; otherwise the state is unchanged.  `none` models a
panic inside `drain_to`. -/
def try_transition_to_reading (pos lim : Nat) (buf : List Byte) : Option State :=
  if takeRemaining pos lim buf ≠ 0 then
    some (State.Writing pos lim buf)
  else
    (drain_to buf pos).map try_transition_to_writing

/-- Embeds `mio::EventSet` restricted to the two bits this program uses. -/
structure EventSet where
  readable : Bool
  writable : Bool
deriving DecidableEq, Repr

/-- `mio::EventSet::readable()`. -/
def EventSet.readableSet : EventSet := ⟨true, false⟩

/-- `mio::EventSet::writable()`. -/
def EventSet.writableSet : EventSet := ⟨false, true⟩

/-- `mio::EventSet::none()`. -/
def EventSet.noneSet : EventSet := ⟨false, false⟩

/-- Embeds `State::event_set`. -/
def event_set : State → EventSet
  | State.Reading _ => EventSet.readableSet
  | State.Writing _ _ _ => EventSet.writableSet
  | State.Closed => EventSet.noneSet

/-- Embeds `Connection::is_closed` (which inspects the state). -/
def is_closed : State → Bool
  | State.Closed => true
  | _ => false

/-- Oracle for `self.socket.try_read_buf(..)`: `ok bs` is `Ok(Some(n))` where
the `n = bs.length` received bytes `bs` were appended to the buffer,
`wouldBlock` is `Ok(None)`, `ioError` is `Err(e)`. -/
inductive ReadResult where
  | ok (bs : List Byte)
  | wouldBlock
  | ioError
deriving DecidableEq, Repr

/-- Oracle for `self.socket.try_write_buf(..)`: `ok n` is `Ok(Some(n))`
(`n` bytes were taken from the buffer), `wouldBlock` is `Ok(None)`,
`ioError` is `Err(e)`. -/
inductive WriteResult where
  | ok (n : Nat)
  | wouldBlock
  | ioError
deriving DecidableEq, Repr

/-- Result of one `Connection` event handler: the new state, or a `panic!`. -/
inductive StepResult where
  | ok (s : State)
  | panicked
deriving DecidableEq, Repr

/-- Embeds `Connection::read` on a `Reading` state with accumulator `buf`
(`mut_read_buf` panics on other variants).  `Ok(Some(0))` closes the
connection; `Ok(Some(n))` leaves the appended bytes in the buffer and runs
the newline scan; `Ok(None)` only re-arms; `Err` panics. -/
def conn_read (buf : List Byte) : ReadResult → StepResult
  | ReadResult.ok bs =>
      if bs.length = 0 then StepResult.ok State.Closed
      else StepResult.ok (try_transition_to_writing (buf ++ bs))
  | ReadResult.wouldBlock => StepResult.ok (State.Reading buf)
  | ReadResult.ioError => StepResult.panicked

/-- Embeds `Connection::write` on a `Writing` state `(pos, lim, buf)`.
`try_write_buf` advances the `Take` by the number of bytes written (clamped
by the remaining limit and the cursor's remaining bytes, as `Take::advance`
and `Cursor::advance` clamp), and the handler then attempts the transition
back to reading.  The second component is the byte range handed to the
socket. -/
def conn_write (pos lim : Nat) (buf : List Byte) : WriteResult → StepResult × List Byte
  | WriteResult.ok n =>
      let m := min (min n lim) (buf.length - pos)
      let sent := (buf.drop pos).take m
      (match try_transition_to_reading (pos + m) (lim - m) buf with
       | some s => StepResult.ok s
       | none => StepResult.panicked, sent)
  | WriteResult.wouldBlock => (StepResult.ok (State.Writing pos lim buf), [])
  | WriteResult.ioError => (StepResult.panicked, [])

/-- Embeds `Connection::ready`: asserts that the delivered events match the
state (`assert!(events.is_readable())` / `assert!(events.is_writable())`),
dispatches to `read`/`write`, and hits `unimplemented!()` on `Closed`. -/
def conn_ready (st : State) (ev : EventSet) (rr : ReadResult) (wr : WriteResult) :
    StepResult × List Byte :=
  match st with
  | State.Reading buf =>
      if ev.readable then (conn_read buf rr, []) else (StepResult.panicked, [])
  | State.Writing pos lim buf =>
      if ev.writable then conn_write pos lim buf wr else (StepResult.panicked, [])
  | State.Closed => (StepResult.panicked, [])

/-! ### Registry (`Slab<Connection>`) and `Pong::ready` -/

/-- Embeds `Slab<Connection>`: slot `i` holds the connection with token
`i + 1` (tokens start at `1`; token `0` is the server socket).  Only the
connection's state matters for the embedding. -/
abbrev Registry := List (Option State)

/-- The slab built by `Pong::new`: `Slab::new_starting_at(Token(1), 1024)`. -/
def pongNew : Registry := List.replicate 1024 none

/-- Index of the first free slot, if any.  `insert_with` succeeds exactly
when a free slot exists and fails (`None`, i.e. `CapacityExceeded`) when the
slab is full; the concrete free slot the real free-list picks is irrelevant
to the claims. -/
def firstFree : Registry → Option Nat
  | [] => none
  | none :: _ => some 0
  | some _ :: rest => (firstFree rest).map (· + 1)

/-- Embeds `self.connections.insert_with(|token| Connection::new(socket, token))`:
stores a fresh connection and returns the updated slab with its token, or
`none` for `CapacityExceeded`. -/
def regInsert (reg : Registry) (s : State) : Option (Registry × Nat) :=
  (firstFree reg).map fun i => (reg.set i (some s), i + 1)

/-- Embeds `self.connections[token]`: the slab `Index` panics (`none`) on
token `0`, an out-of-range token, or an empty slot. -/
def regGet (reg : Registry) (tok : Nat) : Option State :=
  if tok = 0 then none else (reg.get? (tok - 1)).join

/-- Updates the state of the connection at `tok` (mutation through
`self.connections[token]`). -/
def regSet (reg : Registry) (tok : Nat) (s : State) : Registry :=
  reg.set (tok - 1) (some s)

/-- Embeds `self.connections.remove(token)`: frees the slot. -/
def regRemove (reg : Registry) (tok : Nat) : Registry :=
  reg.set (tok - 1) none

/-- Oracle for `self.server.accept()`: `conn` is `Ok(Some(socket))`,
`nonePending` is `Ok(None)`, `ioError` is `Err(e)`. -/
inductive AcceptResult where
  | conn
  | nonePending
  | ioError
deriving DecidableEq, Repr

/-- Whether `event_loop.shutdown()` was called during the handler. -/
inductive LoopState where
  | running
  | shutdown
deriving DecidableEq, Repr

/-- Embeds `Pong::ready` (the `mio::Handler` impl).  Token `0` is the server
socket: the handler asserts readability, then accepts; a successful accept
inserts a fresh `Reading` connection (`Connection::new` starts with an empty
buffer) and `unwrap`s the insertion (panicking — `none` — when the slab is
full); `Ok(None)` is a false wake; `Err` shuts the event loop down.  Any
other token dispatches to the connection (panicking on a dead token) and
removes the connection afterwards if it reports closed.  The last component
is the bytes written to the client's socket during the handler. -/
def pong_ready (reg : Registry) (tok : Nat) (ev : EventSet)
    (acc : AcceptResult) (rr : ReadResult) (wr : WriteResult) :
    Option (Registry × LoopState × List Byte) :=
  if tok = 0 then
    if ev.readable then
      match acc with
      | AcceptResult.conn =>
          match regInsert reg (State.Reading []) with
          | some (reg', _) => some (reg', LoopState.running, [])
          | none => none
      | AcceptResult.nonePending => some (reg, LoopState.running, [])
      | AcceptResult.ioError => some (reg, LoopState.shutdown, [])
    else none
  else
    match regGet reg tok with
    | none => none
    | some st =>
        match conn_ready st ev rr wr with
        | (StepResult.panicked, _) => none
        | (StepResult.ok s', out) =>
            let reg1 := regSet reg tok s'
            if is_closed s' then some (regRemove reg1 tok, LoopState.running, out)
            else some (reg1, LoopState.running, out)

/-! ### Driver: feeding read chunks through a connection

The event loop delivers readiness events one at a time.  The driver below
feeds one received chunk through `conn_read` and then, while the connection
is in `Writing`, delivers writable events whose socket accepts everything
offered (`WriteResult.ok` of the full remaining range) until the connection
is back in `Reading`.  Each writable event hands one flushed range to the
socket; `flushWrites` collects those ranges. -/

/-- Repeatedly deliver full writes while in `Writing`; fuel bounds the loop
(`none` = out of fuel or a panic inside a handler). -/
def flushWrites : Nat → State → Option (State × List (List Byte))
  | _, State.Reading buf => some (State.Reading buf, [])
  | _, State.Closed => some (State.Closed, [])
  | 0, State.Writing _ _ _ => none
  | fuel + 1, State.Writing pos lim buf =>
      match conn_write pos lim buf (WriteResult.ok (takeRemaining pos lim buf)) with
      | (StepResult.ok s, sent) =>
          (flushWrites fuel s).map fun r => (r.1, sent :: r.2)
      | (StepResult.panicked, _) => none

/-- One readable event delivering chunk `bs`, followed by the write flush. -/
def feedChunk (st : State) (bs : List Byte) : Option (State × List (List Byte)) :=
  match st with
  | State.Reading buf =>
      match conn_read buf (ReadResult.ok bs) with
      | StepResult.ok s => flushWrites (buf.length + bs.length + 1) s
      | StepResult.panicked => none
  | _ => none

/-- Feed a list of chunks in order, collecting every flushed range. -/
def processFrom : State → List (List Byte) → Option (State × List (List Byte))
  | st, [] => some (st, [])
  | st, bs :: rest =>
      (feedChunk st bs).bind fun r =>
        (processFrom r.1 rest).map fun r2 => (r2.1, r.2 ++ r2.2)

/-- Feed a list of chunks to a fresh connection (`Connection::new` state:
`Reading` with an empty buffer). -/
def processChunks (cs : List (List Byte)) : Option (State × List (List Byte)) :=
  processFrom (State.Reading []) cs

/-! ### Specification-side description of line splitting -/

/-- A found newline position lies inside the list. -/
theorem findNewline_lt : ∀ {x : List Byte} {p : Nat}, findNewline x = some p → p < x.length := by
  intro x
  induction x with
  | nil => intro p h; simp [findNewline] at h
  | cons b rest ih =>
      intro p h
      simp only [findNewline] at h
      by_cases hb : b = newline
      · simp [hb] at h
        simp only [List.length_cons]
        omega
      · simp [hb, Option.map_eq_some'] at h
        obtain ⟨q, hq, rfl⟩ := h
        have := ih hq
        simp only [List.length_cons]
        omega

/-- The newline-terminated lines of a byte sequence, in order, each
including its trailing newline; an incomplete trailing fragment contributes
no line. -/
def linesOf (x : List Byte) : List (List Byte) :=
  match h : findNewline x with
  | none => []
  | some p => x.take (p + 1) :: linesOf (x.drop (p + 1))
termination_by x.length
decreasing_by
  have := findNewline_lt h
  simp only [List.length_drop]
  omega

/-- The trailing fragment of a byte sequence after its last complete line. -/
def restOf (x : List Byte) : List Byte :=
  match h : findNewline x with
  | none => x
  | some p => restOf (x.drop (p + 1))
termination_by x.length
decreasing_by
  have := findNewline_lt h
  simp only [List.length_drop]
  omega

/-! ### Lemmas about `findNewline`, `linesOf`, `restOf`, `drain_to` -/

theorem findNewline_none_iff {x : List Byte} : findNewline x = none ↔ newline ∉ x := by
  induction x with
  | nil => simp [findNewline]
  | cons b rest ih =>
      by_cases hb : b = newline
      · simp [findNewline, hb]
      · simp [findNewline, hb, Option.map_eq_none', ih, Ne.symm hb]

theorem linesOf_of_none {x : List Byte} (h : findNewline x = none) : linesOf x = [] := by
  rw [linesOf]
  split <;> simp_all

theorem linesOf_of_some {x : List Byte} {p : Nat} (h : findNewline x = some p) :
    linesOf x = x.take (p + 1) :: linesOf (x.drop (p + 1)) := by
  rw [linesOf]
  split <;> simp_all

theorem restOf_of_none {x : List Byte} (h : findNewline x = none) : restOf x = x := by
  rw [restOf]
  split <;> simp_all

theorem restOf_of_some {x : List Byte} {p : Nat} (h : findNewline x = some p) :
    restOf x = restOf (x.drop (p + 1)) := by
  rw [restOf]
  split <;> simp_all

theorem findNewline_restOf (x : List Byte) : findNewline (restOf x) = none := by
  induction x using linesOf.induct with
  | case1 x h => rw [restOf_of_none h]; exact h
  | case2 x p h ih => rw [restOf_of_some h]; exact ih

theorem drain_to_of_le : ∀ (v : List Byte) (c : Nat), c ≤ v.length → drain_to v c = some (v.drop c) := by
  intro v
  induction v with
  | nil =>
      intro c hc
      simp only [List.length_nil, Nat.le_zero] at hc
      subst hc
      rfl
  | cons b vs ih =>
      intro c hc
      cases c with
      | zero => rfl
      | succ c =>
          simp only [List.length_cons, Nat.succ_le_succ_iff] at hc
          simpa [drain_to] using ih c hc

theorem drain_to_of_gt : ∀ (v : List Byte) (c : Nat), v.length < c → drain_to v c = none := by
  intro v
  induction v with
  | nil =>
      intro c hc
      cases c with
      | zero => omega
      | succ c => rfl
  | cons b vs ih =>
      intro c hc
      cases c with
      | zero => omega
      | succ c =>
          simp only [List.length_cons, Nat.succ_lt_succ_iff] at hc
          simpa [drain_to] using ih c hc

theorem findNewline_of_spec : ∀ {x : List Byte} {p : Nat},
    x.get? p = some newline → (∀ b ∈ x.take p, b ≠ newline) → findNewline x = some p := by
  intro x
  induction x with
  | nil => intro p h1 _; simp at h1
  | cons b rest ih =>
      intro p h1 h2
      cases p with
      | zero =>
          simp only [List.get?] at h1
          simp [findNewline, Option.some.inj h1]
      | succ q =>
          have hb : b ≠ newline := h2 b (by simp)
          have h2' : ∀ c ∈ rest.take q, c ≠ newline := by
            intro c hc
            exact h2 c (by simp [List.take_succ_cons, hc])
          have := ih (p := q) h1 h2'
          simp [findNewline, hb, this]

theorem findNewline_append_left : ∀ {x : List Byte} {p : Nat} (y : List Byte),
    findNewline x = some p → findNewline (x ++ y) = some p := by
  intro x
  induction x with
  | nil => intro p y h; simp [findNewline] at h
  | cons b rest ih =>
      intro p y h
      by_cases hb : b = newline
      · simp [findNewline, hb] at h ⊢
        exact h
      · simp only [findNewline, if_neg hb, Option.map_eq_some'] at h
        obtain ⟨q, hq, rfl⟩ := h
        simp [findNewline, hb, ih y hq]

theorem count_take_of_findNewline : ∀ {x : List Byte} {p : Nat},
    findNewline x = some p → (x.take (p + 1)).count newline = 1 := by
  intro x
  induction x with
  | nil => intro p h; simp [findNewline] at h
  | cons b rest ih =>
      intro p h
      by_cases hb : b = newline
      · simp [findNewline, hb] at h
        subst h
        simp [hb, List.count_cons]
      · simp only [findNewline, if_neg hb, Option.map_eq_some'] at h
        obtain ⟨q, hq, rfl⟩ := h
        simp [List.take_succ_cons, List.count_cons, ih hq, hb]

theorem line_shape_of_findNewline : ∀ {x : List Byte} {p : Nat},
    findNewline x = some p →
      (x.take (p + 1)).getLast? = some newline ∧ newline ∉ (x.take (p + 1)).dropLast := by
  intro x
  induction x with
  | nil => intro p h; simp [findNewline] at h
  | cons b rest ih =>
      intro p h
      by_cases hb : b = newline
      · simp [findNewline, hb] at h
        subst h
        simp [hb]
      · simp only [findNewline, if_neg hb, Option.map_eq_some'] at h
        obtain ⟨q, hq, rfl⟩ := h
        obtain ⟨ih1, ih2⟩ := ih hq
        have hne : rest.take (q + 1) ≠ [] := by
          intro hnil
          rw [hnil] at ih1
          simp at ih1
        obtain ⟨c, cs, hcs⟩ := List.exists_cons_of_ne_nil hne
        constructor
        · rw [List.take_succ_cons, hcs, List.getLast?_cons_cons, ← hcs]
          exact ih1
        · rw [hcs] at ih2
          rw [List.take_succ_cons, hcs, List.dropLast_cons₂]
          simp only [List.mem_cons, not_or]
          exact ⟨Ne.symm hb, ih2⟩

theorem join_linesOf_append_restOf (x : List Byte) : (linesOf x).join ++ restOf x = x := by
  induction x using linesOf.induct with
  | case1 x h => simp [linesOf_of_none h, restOf_of_none h]
  | case2 x p h ih =>
      rw [linesOf_of_some h, restOf_of_some h]
      simp only [List.join_cons, List.append_assoc, ih]
      exact List.take_append_drop _ _

theorem length_linesOf (x : List Byte) : (linesOf x).length = x.count newline := by
  induction x using linesOf.induct with
  | case1 x h =>
      rw [linesOf_of_none h]
      have := findNewline_none_iff.mp h
      simp [List.count_eq_zero.mpr this]
  | case2 x p h ih =>
      rw [linesOf_of_some h]
      conv_rhs => rw [← List.take_append_drop (p + 1) x]
      rw [List.count_append]
      simp only [List.length_cons, ih, count_take_of_findNewline h]
      omega

theorem linesOf_restOf_append : ∀ (x y : List Byte),
    linesOf (x ++ y) = linesOf x ++ linesOf (restOf x ++ y)
      ∧ restOf (x ++ y) = restOf (restOf x ++ y) := by
  intro x
  induction x using linesOf.induct with
  | case1 x h =>
      intro y
      rw [linesOf_of_none h, restOf_of_none h]
      simp
  | case2 x p h ih =>
      intro y
      have hp := findNewline_lt h
      have hxy : findNewline (x ++ y) = some p := findNewline_append_left y h
      have htake : (x ++ y).take (p + 1) = x.take (p + 1) :=
        List.take_append_of_le_length (by omega)
      have hdrop : (x ++ y).drop (p + 1) = x.drop (p + 1) ++ y :=
        List.drop_append_of_le_length (by omega)
      obtain ⟨ih1, ih2⟩ := ih y
      refine ⟨?_, ?_⟩
      · rw [linesOf_of_some hxy, htake, hdrop, ih1, linesOf_of_some h, restOf_of_some h]
        simp
      · rw [restOf_of_some hxy, hdrop, ih2, restOf_of_some h]

/-! ### Adequacy of the driver -/

theorem try_transition_to_reading_consumed {x : List Byte} {p : Nat} (hp : p + 1 ≤ x.length) :
    try_transition_to_reading (p + 1) 0 x = some (try_transition_to_writing (x.drop (p + 1))) := by
  simp only [try_transition_to_reading, takeRemaining, Nat.min_zero, ne_eq,
    not_true_eq_false, if_false]
  rw [drain_to_of_le x (p + 1) hp]
  rfl

theorem conn_write_full {x : List Byte} {p : Nat} (hp : p + 1 ≤ x.length) :
    conn_write 0 (p + 1) x (WriteResult.ok (takeRemaining 0 (p + 1) x)) =
      (StepResult.ok (try_transition_to_writing (x.drop (p + 1))), x.take (p + 1)) := by
  have hrem : takeRemaining 0 (p + 1) x = p + 1 := by
    simp only [takeRemaining, Nat.sub_zero]
    omega
  rw [hrem]
  simp only [conn_write, Nat.sub_zero]
  have hm : min (min (p + 1) (p + 1)) x.length = p + 1 := by omega
  rw [hm, List.drop_zero]
  have : p + 1 - (p + 1) = 0 := by omega
  rw [Nat.zero_add, this, try_transition_to_reading_consumed hp]

theorem flushWrites_toWriting : ∀ (x : List Byte) (fuel : Nat), x.length < fuel →
    flushWrites fuel (try_transition_to_writing x) =
      some (State.Reading (restOf x), linesOf x) := by
  intro x
  induction x using linesOf.induct with
  | case1 x h =>
      intro fuel _
      rw [restOf_of_none h, linesOf_of_none h]
      simp only [try_transition_to_writing, h]
      cases fuel <;> rfl
  | case2 x p h ih =>
      intro fuel hfuel
      have hp : p + 1 ≤ x.length := findNewline_lt h
      cases fuel with
      | zero => omega
      | succ f =>
          rw [restOf_of_some h, linesOf_of_some h]
          simp only [try_transition_to_writing, h]
          simp only [flushWrites, conn_write_full hp]
          rw [ih f (by simp only [List.length_drop]; omega)]
          rfl

theorem feedChunk_Reading (buf bs : List Byte) (hbs : bs ≠ []) :
    feedChunk (State.Reading buf) bs =
      some (State.Reading (restOf (buf ++ bs)), linesOf (buf ++ bs)) := by
  have hlen : bs.length ≠ 0 := by simpa [List.length_eq_zero] using hbs
  simp only [feedChunk, conn_read, if_neg hlen]
  exact flushWrites_toWriting (buf ++ bs) _ (by simp only [List.length_append]; omega)

theorem processFrom_Reading : ∀ (cs : List (List Byte)) (r : List Byte),
    findNewline r = none → (∀ c ∈ cs, c ≠ []) →
    processFrom (State.Reading r) cs =
      some (State.Reading (restOf (r ++ cs.join)), linesOf (r ++ cs.join)) := by
  intro cs
  induction cs with
  | nil =>
      intro r hr _
      simp only [processFrom, List.join_nil, List.append_nil,
        restOf_of_none hr, linesOf_of_none hr]
  | cons bs rest ih =>
      intro r hr hcs
      have hbs : bs ≠ [] := hcs bs (by simp)
      have hrest : ∀ c ∈ rest, c ≠ [] := fun c hc => hcs c (by simp [hc])
      simp only [processFrom, feedChunk_Reading r bs hbs, Option.some_bind]
      rw [ih (restOf (r ++ bs)) (findNewline_restOf _) hrest]
      obtain ⟨hl, hrst⟩ := linesOf_restOf_append (r ++ bs) rest.join
      simp only [Option.map_some', Option.some.injEq, List.join_cons, Prod.mk.injEq]
      constructor
      · rw [← List.append_assoc, ← hrst]
      · rw [← List.append_assoc, hl]

/-! ### Further helper lemmas -/

theorem try_transition_to_writing_ne_closed (buf : List Byte) :
    try_transition_to_writing buf ≠ State.Closed := by
  simp only [try_transition_to_writing]
  split <;> simp

theorem try_transition_to_reading_some_ne_closed {pos lim : Nat} {buf : List Byte} {s : State}
    (h : try_transition_to_reading pos lim buf = some s) : s ≠ State.Closed := by
  simp only [try_transition_to_reading] at h
  split at h
  · simp only [Option.some.injEq] at h
    subst h
    simp
  · simp only [Option.map_eq_some'] at h
    obtain ⟨d, _, rfl⟩ := h
    exact try_transition_to_writing_ne_closed d

theorem mem_linesOf_shape : ∀ {x l : List Byte}, l ∈ linesOf x →
    l.getLast? = some newline ∧ newline ∉ l.dropLast := by
  intro x
  induction x using linesOf.induct with
  | case1 x h => intro l hl; rw [linesOf_of_none h] at hl; simp at hl
  | case2 x p h ih =>
      intro l hl
      rw [linesOf_of_some h] at hl
      rcases List.mem_cons.mp hl with rfl | hl'
      · exact line_shape_of_findNewline h
      · exact ih hl'

theorem firstFree_replicate (n : Nat) (s : State) :
    firstFree (List.replicate n (some s)) = none := by
  induction n with
  | zero => rfl
  | succ n ih => simp [List.replicate_succ, firstFree, ih]

theorem regGet_lt_length {reg : Registry} {tok : Nat} {st : State}
    (h : regGet reg tok = some st) : tok ≠ 0 ∧ tok - 1 < reg.length := by
  by_cases h0 : tok = 0
  · rw [regGet, if_pos h0] at h
    exact absurd h (by simp)
  · rw [regGet, if_neg h0] at h
    refine ⟨h0, ?_⟩
    by_cases hlt : tok - 1 < reg.length
    · exact hlt
    · rw [List.get?_eq_none.mpr (by omega)] at h
      simp at h

theorem pong_ready_dispatch (reg : Registry) (tok : Nat) (ev : EventSet)
    (acc : AcceptResult) (rr : ReadResult) (wr : WriteResult) (st : State)
    (h0 : tok ≠ 0) (hget : regGet reg tok = some st) :
    pong_ready reg tok ev acc rr wr =
      match conn_ready st ev rr wr with
      | (StepResult.panicked, _) => none
      | (StepResult.ok s', out) =>
          if is_closed s' then some (regRemove (regSet reg tok s') tok, LoopState.running, out)
          else some (regSet reg tok s', LoopState.running, out) := by
  unfold pong_ready
  rw [if_neg h0, hget]

/-! ### Claim theorems -/

/-- Claim C1 (code_bug evaluation): the code does NOT close-and-reap a
connection on a genuine read/write I/O error, contrary to the
specification.  `Connection::read` and `Connection::write` hit `panic!` on
`Err`, and `Pong::ready` on a live connection whose socket read (resp.
write) errors also panics (`none`), killing the whole server instead of
reaping only that connection. -/
theorem c1_io_error_panics_does_not_reap :
    conn_read [] ReadResult.ioError = StepResult.panicked ∧
    conn_write 0 2 [97, 10] WriteResult.ioError = (StepResult.panicked, []) ∧
    pong_ready [some (State.Reading [97])] 1 EventSet.readableSet AcceptResult.conn
      ReadResult.ioError WriteResult.wouldBlock = none ∧
    pong_ready [some (State.Writing 0 2 [97, 10])] 1 EventSet.writableSet AcceptResult.conn
      ReadResult.wouldBlock WriteResult.ioError = none := by
  decide

/-- Claim C2 (counterexample): with the Registry at its fixed capacity of
1024 live connections, an accept does make `insert_with` fail
(`CapacityExceeded`, i.e. `none`), but the handler `unwrap`s that failure
and panics — the result is `none` (process crash), not a running server, so
the claim that "the server keeps running and continues accepting and
serving existing connections" is false. -/
theorem c2_capacity_counterexample :
    regInsert (List.replicate 1024 (some (State.Reading []))) (State.Reading []) = none ∧
    pong_ready (List.replicate 1024 (some (State.Reading []))) 0 EventSet.readableSet
      AcceptResult.conn ReadResult.wouldBlock WriteResult.wouldBlock = none := by
  have h1 : regInsert (List.replicate 1024 (some (State.Reading []))) (State.Reading []) = none := by
    unfold regInsert
    rw [firstFree_replicate]
    rfl
  refine ⟨h1, ?_⟩
  unfold pong_ready
  rw [h1]
  rfl

/-- Claim C2 (amended): the Registry has fixed capacity 1024; for every
accept arriving while it holds no free slot, the insert fails with
`CapacityExceeded` and the accept handler panics (crashing the whole
server) instead of refusing the connection and continuing. -/
theorem c2_amended_capacity_panics :
    pongNew.length = 1024 ∧
    ∀ (reg : Registry) (ev : EventSet) (rr : ReadResult) (wr : WriteResult),
      ev.readable = true → firstFree reg = none →
      regInsert reg (State.Reading []) = none ∧
      pong_ready reg 0 ev AcceptResult.conn rr wr = none := by
  refine ⟨by rw [pongNew, List.length_replicate], ?_⟩
  intro reg ev rr wr hev hfull
  have hins : regInsert reg (State.Reading []) = none := by
    unfold regInsert
    rw [hfull]
    rfl
  refine ⟨hins, ?_⟩
  unfold pong_ready
  rw [hins, hev]
  rfl

/-- Witness for the amended C2 theorem at the full registry of 1024
`Reading` connections. -/
theorem c2_amended_witness :
    regInsert (List.replicate 1024 (some (State.Reading [97]))) (State.Reading []) = none ∧
    pong_ready (List.replicate 1024 (some (State.Reading [97]))) 0 EventSet.readableSet
      AcceptResult.conn ReadResult.wouldBlock WriteResult.wouldBlock = none :=
  c2_amended_capacity_panics.2 (List.replicate 1024 (some (State.Reading [97])))
    EventSet.readableSet ReadResult.wouldBlock WriteResult.wouldBlock rfl
    (firstFree_replicate 1024 (State.Reading [97]))

/-- Claim C4: on a `Reading` accumulator whose first newline sits at
position `p`, `try_transition_to_writing` yields `Writing` over the whole
unchanged accumulator with cursor `0` and limit `p + 1`; on an accumulator
with no newline the state is unchanged. -/
theorem c4_newline_scan_spec :
    (∀ (buf : List Byte) (p : Nat), buf.get? p = some newline →
        (∀ b ∈ buf.take p, b ≠ newline) →
        try_transition_to_writing buf = State.Writing 0 (p + 1) buf) ∧
    (∀ buf : List Byte, newline ∉ buf → try_transition_to_writing buf = State.Reading buf) := by
  constructor
  · intro buf p h1 h2
    simp only [try_transition_to_writing, findNewline_of_spec h1 h2]
  · intro buf h
    simp only [try_transition_to_writing, findNewline_none_iff.mpr h]

/-- Witness for C4 at the buffer `"a\nb"` (first newline at position 1) and
at the newline-free buffer `"ab"`. -/
theorem c4_witness :
    try_transition_to_writing [97, 10, 98] = State.Writing 0 2 [97, 10, 98] ∧
    try_transition_to_writing [97, 98] = State.Reading [97, 98] :=
  ⟨c4_newline_scan_spec.1 [97, 10, 98] 1 (by decide) (by decide),
   c4_newline_scan_spec.2 [97, 98] (by decide)⟩

/-- Claim C5: on a `Writing` state with nothing remaining (cursor at the
limit), `try_transition_to_reading` drains exactly the `pos` consumed bytes,
makes the remainder the new `Reading` accumulator and immediately re-runs
the newline scan on it; with bytes still remaining the state is unchanged. -/
theorem c5_writing_to_reading_spec :
    (∀ (pos lim : Nat) (buf : List Byte), pos ≤ buf.length →
        takeRemaining pos lim buf = 0 →
        try_transition_to_reading pos lim buf =
          some (try_transition_to_writing (buf.drop pos))) ∧
    (∀ (pos lim : Nat) (buf : List Byte), takeRemaining pos lim buf ≠ 0 →
        try_transition_to_reading pos lim buf = some (State.Writing pos lim buf)) := by
  constructor
  · intro pos lim buf hle h0
    simp only [try_transition_to_reading, h0, ne_eq, not_true_eq_false, if_false]
    rw [drain_to_of_le buf pos hle]
    rfl
  · intro pos lim buf h
    simp [try_transition_to_reading, h]

/-- Witness for C5: a fully transmitted line `"a\n"` with pipelined `"b\n"`
behind it transitions straight back to `Writing`; a partially written line
stays `Writing`. -/
theorem c5_witness :
    try_transition_to_reading 2 0 [97, 10, 98, 10] =
      some (try_transition_to_writing ([97, 10, 98, 10].drop 2)) ∧
    try_transition_to_reading 1 1 [97, 10] = some (State.Writing 1 1 [97, 10]) :=
  ⟨c5_writing_to_reading_spec.1 2 0 [97, 10, 98, 10] (by decide) (by decide),
   c5_writing_to_reading_spec.2 1 1 [97, 10] (by decide)⟩

/-- Claim C8: the interest re-registered for a connection is exactly
readable in `Reading`, writable in `Writing`, and none in `Closed`. -/
theorem c8_event_set_spec :
    (∀ buf : List Byte, event_set (State.Reading buf) = EventSet.readableSet) ∧
    (∀ (pos lim : Nat) (buf : List Byte),
        event_set (State.Writing pos lim buf) = EventSet.writableSet) ∧
    event_set State.Closed = EventSet.noneSet :=
  ⟨fun _ => rfl, fun _ _ _ => rfl, rfl⟩

/-- Claim C9: neither buffer transition ever returns `Closed` (the
transient `mem::replace(self, State::Closed)` is unobservable), and the
connection handlers produce `Closed` only on the zero-length read. -/
theorem c9_closed_only_by_eof :
    (∀ buf : List Byte, try_transition_to_writing buf ≠ State.Closed) ∧
    (∀ (pos lim : Nat) (buf : List Byte), pos ≤ buf.length →
        ∃ s, try_transition_to_reading pos lim buf = some s ∧ s ≠ State.Closed) ∧
    (∀ (buf : List Byte) (rr : ReadResult),
        conn_read buf rr = StepResult.ok State.Closed → rr = ReadResult.ok []) ∧
    (∀ (pos lim : Nat) (buf : List Byte) (wr : WriteResult) (s : State) (out : List Byte),
        conn_write pos lim buf wr = (StepResult.ok s, out) → s ≠ State.Closed) := by
  refine ⟨try_transition_to_writing_ne_closed, ?_, ?_, ?_⟩
  · intro pos lim buf hle
    by_cases h0 : takeRemaining pos lim buf = 0
    · refine ⟨try_transition_to_writing (buf.drop pos), ?_, try_transition_to_writing_ne_closed _⟩
      simp only [try_transition_to_reading, h0, ne_eq, not_true_eq_false, if_false]
      rw [drain_to_of_le buf pos hle]
      rfl
    · exact ⟨State.Writing pos lim buf, by simp [try_transition_to_reading, h0], by simp⟩
  · intro buf rr h
    cases rr with
    | ok bs =>
        by_cases hb : bs.length = 0
        · simp [List.length_eq_zero.mp hb]
        · simp only [conn_read, if_neg hb, StepResult.ok.injEq] at h
          exact absurd h (try_transition_to_writing_ne_closed _)
    | wouldBlock => simp [conn_read] at h
    | ioError => simp [conn_read] at h
  · intro pos lim buf wr s out h
    cases wr with
    | ok n =>
        simp only [conn_write, Prod.mk.injEq] at h
        obtain ⟨h1, _⟩ := h
        split at h1
        · next s' hs' =>
            cases h1
            exact try_transition_to_reading_some_ne_closed hs'
        · cases h1
    | wouldBlock =>
        simp only [conn_write, Prod.mk.injEq, StepResult.ok.injEq] at h
        obtain ⟨rfl, _⟩ := h
        simp
    | ioError => simp [conn_write] at h

/-- Witness for C9 at concrete states: newline scan on `"\n"`, a consumed
`Writing` state, an EOF read, and a completed write. -/
theorem c9_witness :
    try_transition_to_writing [10] ≠ State.Closed ∧
    (∃ s, try_transition_to_reading 1 0 [10] = some s ∧ s ≠ State.Closed) ∧
    ReadResult.ok ([] : List Byte) = ReadResult.ok [] ∧
    State.Reading [] ≠ State.Closed :=
  ⟨c9_closed_only_by_eof.1 [10],
   c9_closed_only_by_eof.2.1 1 0 [10] (by decide),
   c9_closed_only_by_eof.2.2.1 [] (ReadResult.ok []) (by decide),
   c9_closed_only_by_eof.2.2.2 0 2 [97, 10] (WriteResult.ok 2) (State.Reading []) [97, 10]
     (by decide)⟩

/-- Claim C3: feeding any chunking of a byte sequence `S` (every chunk
non-empty) to a fresh connection emits exactly the newline-terminated lines
of `S`, in order, each including its trailing newline and byte-for-byte a
segment of `S`; the number of emitted lines equals the number of newlines
in `S`, and the emitted output is the same for every chunking of `S`. -/
theorem c3_lines_echoed_chunking_invariant (cs : List (List Byte)) (hcs : ∀ c ∈ cs, c ≠ []) :
    processChunks cs = some (State.Reading (restOf cs.join), linesOf cs.join) ∧
    (linesOf cs.join).length = cs.join.count newline ∧
    (linesOf cs.join).join ++ restOf cs.join = cs.join ∧
    (∀ l ∈ linesOf cs.join, l.getLast? = some newline ∧ newline ∉ l.dropLast) ∧
    (∀ cs' : List (List Byte), (∀ c ∈ cs', c ≠ []) → cs'.join = cs.join →
        processChunks cs' = processChunks cs) := by
  have main : ∀ ds : List (List Byte), (∀ c ∈ ds, c ≠ []) →
      processChunks ds = some (State.Reading (restOf ds.join), linesOf ds.join) := by
    intro ds hds
    have h := processFrom_Reading ds [] rfl hds
    rw [List.nil_append] at h
    exact h
  refine ⟨main cs hcs, length_linesOf cs.join, join_linesOf_append_restOf cs.join,
    fun l hl => mem_linesOf_shape hl, ?_⟩
  intro cs' h1 h2
  rw [main cs' h1, main cs hcs, h2]

/-- Witness for C3 at the chunking `["a", "\nb"]` of `S = "a\nb"`: the one
line `"a\n"` is emitted and `"b"` stays buffered. -/
theorem c3_witness :
    processChunks [[97], [10, 98]] =
      some (State.Reading (restOf ([[97], [10, 98]] : List (List Byte)).join),
        linesOf ([[97], [10, 98]] : List (List Byte)).join) ∧
    (linesOf ([[97], [10, 98]] : List (List Byte)).join).length =
      ([[97], [10, 98]] : List (List Byte)).join.count newline ∧
    (linesOf ([[97], [10, 98]] : List (List Byte)).join).join ++
        restOf ([[97], [10, 98]] : List (List Byte)).join =
      ([[97], [10, 98]] : List (List Byte)).join ∧
    (∀ l ∈ linesOf ([[97], [10, 98]] : List (List Byte)).join,
        l.getLast? = some newline ∧ newline ∉ l.dropLast) ∧
    (∀ cs' : List (List Byte), (∀ c ∈ cs', c ≠ []) →
        cs'.join = ([[97], [10, 98]] : List (List Byte)).join →
        processChunks cs' = processChunks [[97], [10, 98]]) :=
  c3_lines_echoed_chunking_invariant [[97], [10, 98]] (by decide)

/-- Claim C6: a zero-length read on a `Reading` connection transitions it
to `Closed` without a panic, and the dispatch in `Pong::ready` then removes
the connection from the Registry, freeing its handle and leaving every
other slot untouched. -/
theorem c6_eof_closes_and_reaps (reg : Registry) (tok : Nat) (buf : List Byte)
    (ev : EventSet) (acc : AcceptResult) (wr : WriteResult)
    (hget : regGet reg tok = some (State.Reading buf)) (hev : ev.readable = true) :
    conn_read buf (ReadResult.ok []) = StepResult.ok State.Closed ∧
    pong_ready reg tok ev acc (ReadResult.ok []) wr =
      some (regRemove (regSet reg tok State.Closed) tok, LoopState.running, []) ∧
    regGet (regRemove (regSet reg tok State.Closed) tok) tok = none ∧
    (∀ t : Nat, t ≠ tok → regGet (regRemove (regSet reg tok State.Closed) tok) t = regGet reg t) := by
  obtain ⟨h0, hlt⟩ := regGet_lt_length hget
  have hcready : conn_ready (State.Reading buf) ev (ReadResult.ok []) wr =
      (StepResult.ok State.Closed, []) := by
    unfold conn_ready
    rw [hev]
    rfl
  refine ⟨rfl, ?_, ?_, ?_⟩
  · rw [pong_ready_dispatch reg tok ev acc (ReadResult.ok []) wr (State.Reading buf) h0 hget,
      hcready]
    rfl
  · unfold regRemove regSet regGet
    rw [if_neg h0, List.set_set, List.get?_set_eq_of_lt none hlt]
    rfl
  · intro t ht
    by_cases ht0 : t = 0
    · unfold regGet
      rw [if_pos ht0, if_pos ht0]
    · unfold regRemove regSet regGet
      rw [if_neg ht0, if_neg ht0, List.set_set, List.get?_set_ne none reg (by omega)]

/-- Witness for C6: a one-slot registry holding a `Reading` connection at
token 1 receiving an EOF read. -/
theorem c6_witness :
    conn_read [97] (ReadResult.ok []) = StepResult.ok State.Closed ∧
    pong_ready [some (State.Reading [97])] 1 EventSet.readableSet AcceptResult.conn
        (ReadResult.ok []) WriteResult.wouldBlock =
      some (regRemove (regSet [some (State.Reading [97])] 1 State.Closed) 1,
        LoopState.running, []) ∧
    regGet (regRemove (regSet [some (State.Reading [97])] 1 State.Closed) 1) 1 = none ∧
    (∀ t : Nat, t ≠ 1 →
        regGet (regRemove (regSet [some (State.Reading [97])] 1 State.Closed) 1) t =
          regGet [some (State.Reading [97])] t) :=
  c6_eof_closes_and_reaps [some (State.Reading [97])] 1 [97] EventSet.readableSet
    AcceptResult.conn WriteResult.wouldBlock (by decide) rfl

/-- Claim C7: on the accept path, `Ok(None)` (nothing pending) is not an
error — the registry is unchanged and the loop keeps running — while an
accept `Err` shuts the event loop down, terminating the whole server. -/
theorem c7_accept_false_wake_and_fatal_error (reg : Registry) (ev : EventSet)
    (rr : ReadResult) (wr : WriteResult) (hev : ev.readable = true) :
    pong_ready reg 0 ev AcceptResult.nonePending rr wr = some (reg, LoopState.running, []) ∧
    pong_ready reg 0 ev AcceptResult.ioError rr wr = some (reg, LoopState.shutdown, []) := by
  constructor <;> (unfold pong_ready; rw [hev]; rfl)

/-- Witness for C7 on the empty registry. -/
theorem c7_witness :
    pong_ready [] 0 EventSet.readableSet AcceptResult.nonePending ReadResult.wouldBlock
        WriteResult.wouldBlock = some ([], LoopState.running, []) ∧
    pong_ready [] 0 EventSet.readableSet AcceptResult.ioError ReadResult.wouldBlock
        WriteResult.wouldBlock = some ([], LoopState.shutdown, []) :=
  c7_accept_false_wake_and_fatal_error [] EventSet.readableSet ReadResult.wouldBlock
    WriteResult.wouldBlock rfl

/-- Claim C10: `drain_to v c` removes exactly the first `c` bytes, leaving
the order-preserved suffix starting at index `c`, whenever `c ≤ v.len()`;
for `c > v.len()` it panics (removing from an empty vector). -/
theorem c10_drain_to_spec :
    (∀ (v : List Byte) (c : Nat), c ≤ v.length → drain_to v c = some (v.drop c)) ∧
    (∀ (v : List Byte) (c : Nat), v.length < c → drain_to v c = none) :=
  ⟨drain_to_of_le, drain_to_of_gt⟩

/-- Witness for C10 at `v = [5, 6, 7]`, `c = 2` and at `v = [5]`, `c = 3`. -/
theorem c10_witness :
    drain_to [5, 6, 7] 2 = some ([5, 6, 7].drop 2) ∧ drain_to [5] 3 = none :=
  ⟨c10_drain_to_spec.1 [5, 6, 7] 2 (by decide), c10_drain_to_spec.2 [5] 3 (by decide)⟩

end PingPong
